import Mathlib

/-!
Verification of the real-time room synchronization layer of the
CollabGPT frontend (src/lib/socket.ts and src/pages/ChatRoom.tsx),
shallowly embedded in Lean.

Timestamps are modelled as natural numbers (milliseconds since epoch,
the value of Date.getTime on the wire).  The JavaScript
Array.prototype.sort with comparator by timestamp is required by the
ECMAScript specification to be a stable sort; it is modelled here by a
stable insertion sort, which computes the same list: elements ordered
by nondecreasing timestamp, equal timestamps kept in input order.
-/

namespace CollabGPT

/-- Message role, the role field of ChatMessage in socket.ts. -/
inductive Role where
  | user
  | assistant
deriving DecidableEq, Repr

/-- ChatMessage from src/lib/socket.ts. -/
structure ChatMessage where
  id : String
  userId : String
  userName : String
  userPhotoURL : Option String
  content : String
  role : Role
  timestamp : Nat
  isTyping : Option Bool
  isError : Option Bool
deriving DecidableEq, Repr

/-- RoomUser from src/lib/socket.ts. -/
structure RoomUser where
  id : String
  name : String
  photoURL : Option String
  socketId : Option String
deriving DecidableEq, Repr

/-- JavaScript Array.prototype.findIndex, returning none instead of -1.
The source tests messageIndex greater or equal to 0, which is exactly
the isSome test on this option. -/
def jsFindIndex (p : ChatMessage → Bool) : List ChatMessage → Option Nat
  | [] => none
  | x :: xs => if p x then some 0 else (jsFindIndex p xs).map (· + 1)

/-- Stable insertion of a message into a list: the new element is
placed before the first element whose timestamp is not smaller. -/
def insertTs (m : ChatMessage) : List ChatMessage → List ChatMessage
  | [] => [m]
  | x :: xs => if x.timestamp < m.timestamp then x :: insertTs m xs else m :: x :: xs

/-- Model of messages.sort((a, b) => a.timestamp.getTime() - b.timestamp.getTime()):
a stable sort by nondecreasing timestamp. -/
def jsSortByTimestamp : List ChatMessage → List ChatMessage
  | [] => []
  | x :: xs => insertTs x (jsSortByTimestamp xs)

/-- Handler of the new-message socket event in ChatRoom.tsx (lines 183-204):
if a message with the same id exists, overwrite it in place at the first
matching index; otherwise append the message and re-sort by timestamp. -/
def onNewMessage (m : ChatMessage) (prev : List ChatMessage) : List ChatMessage :=
  match jsFindIndex (fun x => x.id == m.id) prev with
  | some i => prev.set i m
  | none => jsSortByTimestamp (prev ++ [m])

/-- Handler of the room-history socket event in ChatRoom.tsx (lines 156-161):
the previous list is discarded and replaced by the snapshot messages
sorted by timestamp. -/
def onRoomHistory (snap : List ChatMessage) (_prev : List ChatMessage) : List ChatMessage :=
  jsSortByTimestamp snap

/-- Handler of the ai-typing socket event in ChatRoom.tsx (lines 213-221):
the placeholder message is appended unconditionally, with no id check. -/
def onAiTyping (m : ChatMessage) (prev : List ChatMessage) : List ChatMessage :=
  prev ++ [m]

/-- A message list sorted by nondecreasing timestamp. -/
def sortedByTs (l : List ChatMessage) : Prop :=
  l.Pairwise (fun a b => a.timestamp ≤ b.timestamp)

/-- Fold of a sequence of new-message events over the empty initial list. -/
def mergeNewMessages (msgs : List ChatMessage) : List ChatMessage :=
  msgs.foldl (fun acc m => onNewMessage m acc) []

theorem insertTs_perm (m : ChatMessage) (l : List ChatMessage) :
    (insertTs m l).Perm (m :: l) := by
  induction l with
  | nil => simp [insertTs]
  | cons x xs ih =>
    simp only [insertTs]
    by_cases h : x.timestamp < m.timestamp
    · simp only [if_pos h]
      exact (ih.cons x).trans (List.Perm.swap m x xs)
    · simp [if_neg h]

theorem jsSortByTimestamp_perm (l : List ChatMessage) :
    (jsSortByTimestamp l).Perm l := by
  induction l with
  | nil => simp [jsSortByTimestamp]
  | cons x xs ih =>
    exact (insertTs_perm x (jsSortByTimestamp xs)).trans (ih.cons x)

theorem insertTs_sorted {l : List ChatMessage} (m : ChatMessage) (h : sortedByTs l) :
    sortedByTs (insertTs m l) := by
  induction l with
  | nil => simp [insertTs, sortedByTs]
  | cons x xs ih =>
    simp only [sortedByTs, List.pairwise_cons] at h
    obtain ⟨hx, hxs⟩ := h
    simp only [insertTs]
    by_cases hlt : x.timestamp < m.timestamp
    · rw [if_pos hlt]
      simp only [sortedByTs, List.pairwise_cons]
      refine ⟨?_, ih hxs⟩
      intro y hy
      rcases List.mem_cons.mp (((insertTs_perm m xs).mem_iff).mp hy) with rfl | hyl
      · exact Nat.le_of_lt hlt
      · exact hx y hyl
    · rw [if_neg hlt]
      simp only [sortedByTs, List.pairwise_cons]
      refine ⟨?_, ?_, hxs⟩
      · intro y hy
        rcases List.mem_cons.mp hy with rfl | hyl
        · exact Nat.le_of_not_lt hlt
        · exact Nat.le_trans (Nat.le_of_not_lt hlt) (hx y hyl)
      · exact hx

theorem jsSortByTimestamp_sorted (l : List ChatMessage) :
    sortedByTs (jsSortByTimestamp l) := by
  induction l with
  | nil => simp [jsSortByTimestamp, sortedByTs]
  | cons x xs ih => exact insertTs_sorted x ih

theorem insertTs_filter_ts (m : ChatMessage) (l : List ChatMessage) (t : Nat) :
    (insertTs m l).filter (fun x => x.timestamp == t) =
      (m :: l).filter (fun x => x.timestamp == t) := by
  induction l with
  | nil => simp [insertTs]
  | cons x xs ih =>
    simp only [insertTs]
    by_cases hlt : x.timestamp < m.timestamp
    · rw [if_pos hlt]
      by_cases hm : m.timestamp = t
      · have hx : ¬ x.timestamp = t := by omega
        simp [List.filter_cons, hx, hm, ih]
      · by_cases hx : x.timestamp = t
        · simp [List.filter_cons, hx, hm, ih]
        · simp [List.filter_cons, hx, hm, ih]
    · rw [if_neg hlt]

theorem jsSortByTimestamp_filter_ts (l : List ChatMessage) (t : Nat) :
    (jsSortByTimestamp l).filter (fun x => x.timestamp == t) =
      l.filter (fun x => x.timestamp == t) := by
  induction l with
  | nil => simp [jsSortByTimestamp]
  | cons x xs ih =>
    simp only [jsSortByTimestamp]
    rw [insertTs_filter_ts]
    by_cases hx : x.timestamp = t
    · simp [List.filter_cons, hx, ih]
    · simp [List.filter_cons, hx, ih]

theorem jsFindIndex_eq_none {p : ChatMessage → Bool} {l : List ChatMessage}
    (h : ∀ x ∈ l, p x = false) : jsFindIndex p l = none := by
  induction l with
  | nil => rfl
  | cons x xs ih =>
    have hx := h x (List.mem_cons_self x xs)
    simp only [jsFindIndex, hx, Bool.false_eq_true, if_false]
    rw [ih fun y hy => h y (List.mem_cons_of_mem x hy)]
    rfl

theorem jsFindIndex_spec {p : ChatMessage → Bool} {l : List ChatMessage} {i : Nat}
    (h : jsFindIndex p l = some i) : ∃ x, l[i]? = some x ∧ p x = true := by
  induction l generalizing i with
  | nil => simp [jsFindIndex] at h
  | cons x xs ih =>
    simp only [jsFindIndex] at h
    by_cases hx : p x = true
    · rw [if_pos hx] at h
      obtain rfl : i = 0 := (Option.some.injEq ..).mp h.symm
      exact ⟨x, by simp, hx⟩
    · rw [if_neg hx] at h
      cases hfi : jsFindIndex p xs with
      | none =>
        rw [hfi] at h
        exact absurd h (by simp)
      | some j =>
        rw [hfi] at h
        obtain rfl : j + 1 = i := by simpa using h
        obtain ⟨y, hy, hpy⟩ := ih hfi
        exact ⟨y, by simpa using hy, hpy⟩

theorem jsFindIndex_exists_of_mem {p : ChatMessage → Bool} {l : List ChatMessage}
    {x : ChatMessage} (hx : x ∈ l) (hp : p x = true) :
    ∃ i, jsFindIndex p l = some i := by
  induction l with
  | nil => cases hx
  | cons y ys ih =>
    by_cases hy : p y = true
    · exact ⟨0, by simp [jsFindIndex, hy]⟩
    · rcases List.mem_cons.mp hx with rfl | hxs
      · exact absurd hp hy
      · obtain ⟨i, hi⟩ := ih hxs
        exact ⟨i + 1, by simp [jsFindIndex, hy, hi]⟩

/-- C1: a new-message event whose id matches an existing message replaces
that message in place at the first matching index: the list length is
unchanged, the incoming message occupies that index, and every other
position holds exactly the message it held before (hence the relative
order of all other messages is unchanged). -/
theorem newMessage_replaces_in_place (m : ChatMessage) (prev : List ChatMessage)
    (h : ∃ x ∈ prev, x.id = m.id) :
    ∃ i, jsFindIndex (fun x => x.id == m.id) prev = some i ∧
      (onNewMessage m prev).length = prev.length ∧
      (onNewMessage m prev)[i]? = some m ∧
      ∀ j, j ≠ i → (onNewMessage m prev)[j]? = prev[j]? := by
  obtain ⟨x, hmem, hid⟩ := h
  have hpx : (fun y : ChatMessage => y.id == m.id) x = true := beq_iff_eq.mpr hid
  obtain ⟨i, hfi⟩ := @jsFindIndex_exists_of_mem (fun y : ChatMessage => y.id == m.id) prev x hmem hpx
  obtain ⟨y, hy, _⟩ := jsFindIndex_spec hfi
  have hilt : i < prev.length := by
    by_contra hge
    rw [List.getElem?_eq_none (Nat.le_of_not_lt hge)] at hy
    cases hy
  refine ⟨i, hfi, ?_, ?_, ?_⟩ <;> simp only [onNewMessage, hfi]
  · exact List.length_set ..
  · exact List.getElem?_set_self hilt
  · intro j hj
    exact List.getElem?_set_ne (Ne.symm hj)

/-- C3: processing a room-history snapshot replaces the whole message
list with the snapshot messages sorted ascending by timestamp,
independently of the prior list, and processing the same snapshot twice
in a row gives the same final list as processing it once. -/
theorem roomHistory_replaces_sorted_idempotent (snap prev prevAlt : List ChatMessage) :
    sortedByTs (onRoomHistory snap prev) ∧
    onRoomHistory snap prev = onRoomHistory snap prevAlt ∧
    onRoomHistory snap (onRoomHistory snap prev) = onRoomHistory snap prev :=
  ⟨jsSortByTimestamp_sorted snap, rfl, rfl⟩

theorem mergeFold_invariant (msgs : List ChatMessage) :
    ∀ acc ps : List ChatMessage,
      sortedByTs acc → acc.Perm ps →
      (∀ t, acc.filter (fun x => x.timestamp == t) = ps.filter (fun x => x.timestamp == t)) →
      ((ps ++ msgs).map ChatMessage.id).Nodup →
      sortedByTs (msgs.foldl (fun a m => onNewMessage m a) acc) ∧
      (msgs.foldl (fun a m => onNewMessage m a) acc).Perm (ps ++ msgs) ∧
      ∀ t, (msgs.foldl (fun a m => onNewMessage m a) acc).filter (fun x => x.timestamp == t) =
        (ps ++ msgs).filter (fun x => x.timestamp == t) := by
  induction msgs with
  | nil =>
    intro acc ps hs hp hf _
    simpa using ⟨hs, hp, hf⟩
  | cons m rest ih =>
    intro acc ps hs hp hf hnd
    have hmid : m.id ∉ ps.map ChatMessage.id := by
      intro hmem
      rw [List.map_append] at hnd
      rcases List.nodup_append.mp hnd with ⟨_, _, hdis⟩
      exact hdis hmem (by simp)
    have hmacc : ∀ x ∈ acc, (fun x => x.id == m.id) x = false := by
      intro x hxa
      rw [beq_eq_false_iff_ne]
      intro heq
      exact hmid (heq ▸ List.mem_map_of_mem ChatMessage.id (hp.mem_iff.mp hxa))
    have hnone : jsFindIndex (fun x => x.id == m.id) acc = none := jsFindIndex_eq_none hmacc
    have hstep : onNewMessage m acc = jsSortByTimestamp (acc ++ [m]) := by
      rw [onNewMessage, hnone]
    rw [List.foldl_cons, hstep]
    have hnd' : (((ps ++ [m]) ++ rest).map ChatMessage.id).Nodup := by
      rw [List.append_assoc]
      simpa using hnd
    have hres := ih (jsSortByTimestamp (acc ++ [m])) (ps ++ [m])
      (jsSortByTimestamp_sorted _)
      ((jsSortByTimestamp_perm _).trans (hp.append_right [m]))
      (fun t => by
        rw [jsSortByTimestamp_filter_ts, List.filter_append, List.filter_append, hf t])
      hnd'
    rw [List.append_assoc] at hres
    simpa using hres

/-- C2: merging any sequence of new-message events with pairwise distinct
ids into an initially empty list yields a list sorted ascending by
timestamp, and for every timestamp value the messages carrying it appear
in arrival order (stable tie-break). -/
theorem mergeNewMessages_sorted_stable (msgs : List ChatMessage)
    (h : (msgs.map ChatMessage.id).Nodup) :
    sortedByTs (mergeNewMessages msgs) ∧
    ∀ t, (mergeNewMessages msgs).filter (fun x => x.timestamp == t) =
      msgs.filter (fun x => x.timestamp == t) := by
  have hres := mergeFold_invariant msgs [] []
    (by simp [sortedByTs]) (List.Perm.refl []) (fun t => rfl) (by simpa using h)
  exact ⟨hres.1, hres.2.2⟩

/-- Sample user message with timestamp 100, used in concrete witnesses. -/
def msgB0 : ChatMessage :=
  { id := "b", userId := "u2", userName := "Bea", userPhotoURL := none,
    content := "hi", role := .user, timestamp := 100, isTyping := none, isError := none }

/-- Sample AI placeholder message with id a, used in concrete witnesses. -/
def msgAOld : ChatMessage :=
  { id := "a", userId := "ai", userName := "AI", userPhotoURL := none,
    content := "thinking", role := .assistant, timestamp := 200, isTyping := some true,
    isError := none }

/-- Final AI answer carrying the same id as the placeholder. -/
def msgANew : ChatMessage :=
  { id := "a", userId := "ai", userName := "AI", userPhotoURL := none,
    content := "answer", role := .assistant, timestamp := 200, isTyping := none,
    isError := none }

/-- Sample user message sharing timestamp 200, used for the tie-break witness. -/
def msgC0 : ChatMessage :=
  { id := "c", userId := "u1", userName := "Al", userPhotoURL := none,
    content := "also", role := .user, timestamp := 200, isTyping := none, isError := none }

/-- C1 witness: replacing the AI placeholder inside a concrete
two-message list keeps the length, puts the final answer at the
placeholder position and leaves the other entry untouched. -/
theorem newMessage_replaces_in_place_witness :
    (onNewMessage msgANew [msgB0, msgAOld]).length = 2 ∧
    (onNewMessage msgANew [msgB0, msgAOld])[1]? = some msgANew ∧
    (onNewMessage msgANew [msgB0, msgAOld])[0]? = [msgB0, msgAOld][0]? := by
  obtain ⟨i, hfi, hlen, hget, hother⟩ :=
    newMessage_replaces_in_place msgANew [msgB0, msgAOld] ⟨msgAOld, by decide, by decide⟩
  have h1 : jsFindIndex (fun x => x.id == msgANew.id) [msgB0, msgAOld] = some 1 := by decide
  obtain rfl : (1 : Nat) = i := (Option.some.injEq ..).mp (h1.symm.trans hfi)
  exact ⟨hlen, hget, hother 0 (by decide)⟩

/-- C2 witness: three distinct-id messages with a timestamp tie merge
into a sorted list whose tied messages keep arrival order. -/
theorem mergeNewMessages_sorted_stable_witness :
    sortedByTs (mergeNewMessages [msgAOld, msgB0, msgC0]) ∧
    (mergeNewMessages [msgAOld, msgB0, msgC0]).filter (fun x => x.timestamp == 200) =
      [msgAOld, msgB0, msgC0].filter (fun x => x.timestamp == 200) := by
  have h := mergeNewMessages_sorted_stable [msgAOld, msgB0, msgC0] (by decide)
  exact ⟨h.1, h.2 200⟩

/-- Inbound message-list events handled by the ChatRoom reconciler. -/
inductive ChatEvent where
  | roomHistory (msgs : List ChatMessage)
  | newMessage (m : ChatMessage)
  | aiTyping (m : ChatMessage)
deriving DecidableEq, Repr

/-- Dispatch one inbound event to its ChatRoom.tsx handler. -/
def applyEvent (l : List ChatMessage) : ChatEvent → List ChatMessage
  | .roomHistory msgs => onRoomHistory msgs l
  | .newMessage m => onNewMessage m l
  | .aiTyping m => onAiTyping m l

/-- Process a sequence of inbound events starting from the empty list. -/
def processChatEvents (evs : List ChatEvent) : List ChatMessage :=
  evs.foldl applyEvent []

/-- Side conditions under which id uniqueness is preserved along a run:
every snapshot carries pairwise distinct message ids, and every
ai-typing placeholder id is absent from the list at its arrival. -/
def okEvents : List ChatEvent → List ChatMessage → Bool
  | [], _ => true
  | e :: rest, l =>
    (match e with
     | .roomHistory msgs => decide ((msgs.map ChatMessage.id).Nodup)
     | .newMessage _ => true
     | .aiTyping m => decide (m.id ∉ l.map ChatMessage.id)) &&
    okEvents rest (applyEvent l e)

theorem jsFindIndex_none_forall {p : ChatMessage → Bool} {l : List ChatMessage}
    (h : jsFindIndex p l = none) : ∀ x ∈ l, p x = false := by
  induction l with
  | nil => intro x hx; cases hx
  | cons y ys ih =>
    simp only [jsFindIndex] at h
    by_cases hy : p y = true
    · rw [if_pos hy] at h; cases h
    · rw [if_neg hy] at h
      have hys : jsFindIndex p ys = none := by
        cases hfi : jsFindIndex p ys with
        | none => rfl
        | some j => rw [hfi] at h; exact absurd h (by simp)
      intro x hx
      rcases List.mem_cons.mp hx with rfl | hxs
      · exact Bool.eq_false_iff.mpr hy
      · exact ih hys x hxs

theorem set_eq_self_of_getElem {α : Type} (l : List α) (i : Nat) (a : α)
    (h : l[i]? = some a) : l.set i a = l := by
  induction l generalizing i with
  | nil => simp at h
  | cons x xs ih =>
    cases i with
    | zero =>
      simp only [List.getElem?_cons_zero, Option.some.injEq] at h
      simp [h]
    | succ j =>
      simp only [List.getElem?_cons_succ] at h
      simp [List.set, ih j h]

theorem nodup_ids_append_fresh {l : List ChatMessage} {m : ChatMessage}
    (h : (l.map ChatMessage.id).Nodup) (hm : m.id ∉ l.map ChatMessage.id) :
    ((l ++ [m]).map ChatMessage.id).Nodup := by
  rw [List.map_append]
  refine h.append (List.nodup_singleton _) ?_
  intro a ha hb
  simp only [List.map_cons, List.map_nil, List.mem_singleton] at hb
  exact hm (hb ▸ ha)

theorem nodup_ids_onNewMessage {l : List ChatMessage} (m : ChatMessage)
    (h : (l.map ChatMessage.id).Nodup) :
    ((onNewMessage m l).map ChatMessage.id).Nodup := by
  rw [onNewMessage]
  cases hfi : jsFindIndex (fun x => x.id == m.id) l with
  | some i =>
    obtain ⟨y, hy, hpy⟩ := jsFindIndex_spec hfi
    have hyid : y.id = m.id := beq_iff_eq.mp hpy
    rw [List.map_set]
    have hmi : (l.map ChatMessage.id)[i]? = some m.id := by
      rw [List.getElem?_map, hy]
      simp [hyid]
    rw [set_eq_self_of_getElem _ _ _ hmi]
    exact h
  | none =>
    have hfresh : m.id ∉ l.map ChatMessage.id := by
      intro hmem
      obtain ⟨x, hx, hxid⟩ := List.mem_map.mp hmem
      have := jsFindIndex_none_forall hfi x hx
      rw [beq_eq_false_iff_ne] at this
      exact this hxid
    exact ((jsSortByTimestamp_perm (l ++ [m])).map ChatMessage.id).symm.nodup
      (nodup_ids_append_fresh h hfresh)

theorem okEvents_preserves_nodup :
    ∀ (evs : List ChatEvent) (l : List ChatMessage),
      (l.map ChatMessage.id).Nodup → okEvents evs l = true →
      ((evs.foldl applyEvent l).map ChatMessage.id).Nodup := by
  intro evs
  induction evs with
  | nil => intro l h _; simpa using h
  | cons e rest ih =>
    intro l h hok
    rw [List.foldl_cons]
    cases e with
    | roomHistory msgs =>
      simp only [okEvents, Bool.and_eq_true, decide_eq_true_eq] at hok
      refine ih _ ?_ hok.2
      simp only [applyEvent, onRoomHistory]
      exact ((jsSortByTimestamp_perm msgs).map ChatMessage.id).symm.nodup hok.1
    | newMessage m =>
      simp only [okEvents, Bool.and_eq_true] at hok
      exact ih _ (nodup_ids_onNewMessage m h) hok.2
    | aiTyping m =>
      simp only [okEvents, Bool.and_eq_true, decide_eq_true_eq] at hok
      refine ih _ ?_ hok.2
      simp only [applyEvent, onAiTyping]
      exact nodup_ids_append_fresh h hok.1

/-- C7 counterexample: two ai-typing events with the same id produce two
list entries with that id, because the ai-typing handler appends without
any id check; the claimed invariant fails as stated. -/
theorem aiTyping_duplicate_ids_counterexample :
    ¬ ((processChatEvents [.aiTyping msgAOld, .aiTyping msgAOld]).map ChatMessage.id).Nodup := by
  decide

/-- C7 amended: the message list contains at most one entry per id for
every event sequence in which each room-history snapshot carries
pairwise distinct ids and each ai-typing event carries an id not already
present at its arrival; the new-message handler needs no proviso. -/
theorem uniqueIds_of_okEvents (evs : List ChatEvent)
    (h : okEvents evs [] = true) :
    ((processChatEvents evs).map ChatMessage.id).Nodup :=
  okEvents_preserves_nodup evs [] (by simp) h

/-- C7 witness: a concrete run with a snapshot, an ai-typing placeholder
and its replacing final answer keeps ids unique. -/
theorem uniqueIds_of_okEvents_witness :
    ((processChatEvents [.roomHistory [msgB0], .aiTyping msgAOld, .newMessage msgANew]).map
      ChatMessage.id).Nodup := by
  exact uniqueIds_of_okEvents [.roomHistory [msgB0], .aiTyping msgAOld, .newMessage msgANew]
    (by decide)

/-- Dedupe reduce used identically by the room-history, user-joined and
user-left handlers: push a user only when no user with the same id is
already in the accumulator. -/
def dedupeById (users : List RoomUser) : List RoomUser :=
  users.foldl (fun acc u => if acc.any (fun x => x.id == u.id) then acc else acc ++ [u]) []

/-- user-joined handler (ChatRoom.tsx lines 247-257): the presence list
is replaced wholesale by the deduplicated carried list. -/
def onUserJoined (users : List RoomUser) (_prev : List RoomUser) : List RoomUser :=
  dedupeById users

/-- Value stored in the typing map (name and photo of a typing user). -/
structure TypingInfo where
  name : String
  photoURL : Option String
deriving DecidableEq, Repr

/-- user-left handler (ChatRoom.tsx lines 260-277): the presence list is
replaced by the deduplicated carried list and the departing user id is
deleted from the typing map (a JavaScript Map, modelled as an
association list with unique keys). -/
def onUserLeft (userId : String) (users : List RoomUser)
    (_prevUsers : List RoomUser) (typing : List (String × TypingInfo)) :
    List RoomUser × List (String × TypingInfo) :=
  (dedupeById users, typing.filter (fun p => p.1 != userId))

/-- room-history handler, presence part (ChatRoom.tsx lines 163-171). -/
def onRoomHistoryUsers (users : List RoomUser) (_prev : List RoomUser) : List RoomUser :=
  dedupeById users

theorem dedupeById_aux (users : List RoomUser) :
    ∀ acc : List RoomUser, (acc.map RoomUser.id).Nodup →
      ((users.foldl
        (fun acc u => if acc.any (fun x => x.id == u.id) then acc else acc ++ [u])
        acc).map RoomUser.id).Nodup := by
  induction users with
  | nil => intro acc h; simpa using h
  | cons u rest ih =>
    intro acc h
    rw [List.foldl_cons]
    by_cases hany : acc.any (fun x => x.id == u.id) = true
    · rw [if_pos hany]
      exact ih acc h
    · rw [if_neg hany]
      apply ih
      rw [List.map_append]
      refine h.append (List.nodup_singleton _) ?_
      intro a ha hb
      simp only [List.map_cons, List.map_nil, List.mem_singleton] at hb
      subst hb
      obtain ⟨x, hx, hxid⟩ := List.mem_map.mp ha
      exact hany (List.any_eq_true.mpr ⟨x, hx, beq_iff_eq.mpr hxid⟩)

/-- C9: after room-history, user-joined or user-left, the presence list
contains at most one entry per user id even when the carried list
repeats an id, and user-left also removes the departing user id from
the typing map. -/
theorem presence_dedup_and_typing_purge (users prevU : List RoomUser)
    (typing : List (String × TypingInfo)) (uid : String) :
    ((onRoomHistoryUsers users prevU).map RoomUser.id).Nodup ∧
    ((onUserJoined users prevU).map RoomUser.id).Nodup ∧
    ((onUserLeft uid users prevU typing).1.map RoomUser.id).Nodup ∧
    uid ∉ (onUserLeft uid users prevU typing).2.map Prod.fst := by
  have hd : ((dedupeById users).map RoomUser.id).Nodup := dedupeById_aux users [] (by simp)
  refine ⟨hd, hd, hd, ?_⟩
  intro hmem
  simp only [onUserLeft, List.mem_map] at hmem
  obtain ⟨p, hp, hpe⟩ := hmem
  rw [List.mem_filter] at hp
  have hne := hp.2
  rw [bne_iff_ne] at hne
  exact hne hpe

/-- Raw authenticated user as delivered by the auth provider (the
firebase User fields read by actuallyJoinRoom). -/
structure RawUser where
  uid : String
  displayName : Option String
  email : Option String
  photoURL : Option String
deriving DecidableEq, Repr

/-- Sanitized identity projection built by actuallyJoinRoom. -/
structure SafeUser where
  uid : String
  displayName : String
  email : Option String
  photoURL : Option String
deriving DecidableEq, Repr

/-- The safe user object of actuallyJoinRoom: identity fields projected,
with the display-name fallback default. -/
def mkSafeUser (u : Option RawUser) : Option SafeUser :=
  u.map fun user =>
    { uid := user.uid, displayName := user.displayName.getD "User",
      email := user.email, photoURL := user.photoURL }

/-- Module state of src/lib/socket.ts relevant to the room session: the
remembered current room. -/
structure SocketState where
  currentRoomId : Option String
deriving DecidableEq, Repr

/-- Events emitted to the server by the room session. -/
inductive OutEvent where
  | leaveRoom (roomId : String)
  | joinRoomEv (roomId : String) (user : Option SafeUser)
deriving DecidableEq, Repr

/-- actuallyJoinRoom (socket.ts lines 145-163): stores the room id as
current immediately and emits join-room with the sanitized identity.
The argument at is the delay, in milliseconds from the joinRoom call,
at which the emission happens. -/
def actuallyJoinRoom (at_ : Nat) (roomId : String) (u : Option RawUser)
    (st : SocketState) : SocketState × List (Nat × OutEvent) :=
  ({ st with currentRoomId := some roomId }, [(at_, .joinRoomEv roomId (mkSafeUser u))])

/-- joinRoom (socket.ts lines 125-142): when a different room is
current, emit leave-room for it immediately and run actuallyJoinRoom
after a 100 ms setTimeout; otherwise run actuallyJoinRoom immediately. -/
def joinRoom (roomId : String) (u : Option RawUser) (st : SocketState) :
    SocketState × List (Nat × OutEvent) :=
  match st.currentRoomId with
  | some cur =>
    if cur ≠ roomId then
      let res := actuallyJoinRoom 100 roomId u st
      (res.1, (0, .leaveRoom cur) :: res.2)
    else
      actuallyJoinRoom 0 roomId u st
  | none => actuallyJoinRoom 0 roomId u st

/-- C4: joining room B while a different room A is current emits
leave-room for A at time 0 strictly before join-room for B at time 100;
with no current room, or when B is already current, join-room for B is
the only emission and happens immediately. -/
theorem joinRoom_leave_before_join (st : SocketState) (roomB : String) (u : Option RawUser) :
    (∀ roomA, st.currentRoomId = some roomA → roomA ≠ roomB →
      (joinRoom roomB u st).2 =
        [(0, .leaveRoom roomA), (100, .joinRoomEv roomB (mkSafeUser u))]) ∧
    ((st.currentRoomId = none ∨ st.currentRoomId = some roomB) →
      (joinRoom roomB u st).2 = [(0, .joinRoomEv roomB (mkSafeUser u))]) := by
  constructor
  · intro roomA hcur hne
    simp [joinRoom, hcur, hne, actuallyJoinRoom]
  · intro hcur
    rcases hcur with hnone | hsame
    · simp [joinRoom, hnone, actuallyJoinRoom]
    · simp [joinRoom, hsame, actuallyJoinRoom]

/-- C4 witness: concrete traces for both branches of joinRoom. -/
theorem joinRoom_leave_before_join_witness :
    (joinRoom "roomB" none { currentRoomId := some "roomA" }).2 =
      [(0, .leaveRoom "roomA"), (100, .joinRoomEv "roomB" none)] ∧
    (joinRoom "roomB" none { currentRoomId := none }).2 =
      [(0, .joinRoomEv "roomB" none)] := by
  constructor
  · exact (joinRoom_leave_before_join { currentRoomId := some "roomA" } "roomB" none).1
      "roomA" rfl (by decide)
  · exact (joinRoom_leave_before_join { currentRoomId := none } "roomB" none).2 (Or.inl rfl)

/-- C8 counterexample: joinRoom with no current room sets the
current-room pointer to the new room at once, in a step that receives no
RoomSnapshot at all, refuting the claim that the pointer is updated only
upon snapshot receipt. -/
theorem currentRoom_set_before_snapshot_counterexample :
    (joinRoom "roomB" none { currentRoomId := none }).1.currentRoomId = some "roomB" := by
  decide

/-- C8 amended: the current-room pointer is updated eagerly by
actuallyJoinRoom at the moment the join-room emission is issued, for
every call path of joinRoom, before any snapshot can have arrived. -/
theorem currentRoom_set_at_join_emission (roomId : String) (u : Option RawUser)
    (st : SocketState) (at_ : Nat) :
    (actuallyJoinRoom at_ roomId u st).1.currentRoomId = some roomId ∧
    (joinRoom roomId u st).1.currentRoomId = some roomId := by
  refine ⟨rfl, ?_⟩
  rw [joinRoom]
  cases hcur : st.currentRoomId with
  | none => rfl
  | some cur =>
    by_cases hne : cur ≠ roomId
    · simp [hne, actuallyJoinRoom]
    · simp [hne, actuallyJoinRoom]

/-- Outcome of the HTTP DELETE issued by deleteUserChat. -/
inductive DeleteOutcome where
  | response (ok : Bool) (status : Nat) (bodyParses : Bool)
  | fetchFailure
  | timeoutAbort
deriving DecidableEq, Repr

/-- Observable actions of deleteUserChat, listed in program order. -/
inductive DeleteAction where
  | emitLeave (roomId : String)
  | httpDelete (userId roomId : String)
  | emitUserDeletedChat (userId roomId : String)
deriving DecidableEq, Repr

/-- deleteUserChat (socket.ts lines 245-301): emit leave-room, clear the
current-room pointer when it pointed at this room, then issue the DELETE
with a 10 second abort timeout; every response, OK or not and whether or
not its body parses as JSON, leads to the user-deleted-chat emission and
the return value true, and a fetch rejection, including the timeout
abort, is caught and also returns true. -/
def deleteUserChat (userId roomId : String) (st : SocketState) (oc : DeleteOutcome) :
    Bool × SocketState × List DeleteAction :=
  let st1 : SocketState :=
    if st.currentRoomId = some roomId then { currentRoomId := none } else st
  let pre : List DeleteAction := [.emitLeave roomId, .httpDelete userId roomId]
  match oc with
  | .response _ _ _ => (true, st1, pre ++ [.emitUserDeletedChat userId roomId])
  | .fetchFailure => (true, st1, pre)
  | .timeoutAbort => (true, st1, pre)

/-- C6: deleteUserChat returns true for every HTTP outcome, including a
non-OK status, a fetch failure and the 10 second timeout abort; its
trace emits leave-room for the room strictly before the HTTP DELETE,
and the current-room pointer is cleared exactly when it pointed at the
deleted room. -/
theorem deleteUserChat_always_succeeds (userId roomId : String) (st : SocketState)
    (oc : DeleteOutcome) :
    (deleteUserChat userId roomId st oc).1 = true ∧
    (deleteUserChat userId roomId st oc).2.2.take 2 =
      [.emitLeave roomId, .httpDelete userId roomId] ∧
    (st.currentRoomId = some roomId →
      (deleteUserChat userId roomId st oc).2.1.currentRoomId = none) ∧
    (st.currentRoomId ≠ some roomId →
      (deleteUserChat userId roomId st oc).2.1 = st) := by
  by_cases hcur : st.currentRoomId = some roomId
  · cases oc <;> simp [deleteUserChat, hcur]
  · cases oc <;> simp [deleteUserChat, hcur]

/-- C6 witness: the spec scenario of a 10 second timeout abort on a
currently joined room still reports success and clears the pointer. -/
theorem deleteUserChat_always_succeeds_witness :
    (deleteUserChat "u1" "r1" { currentRoomId := some "r1" } .timeoutAbort).1 = true ∧
    (deleteUserChat "u1" "r1" { currentRoomId := some "r1" } .timeoutAbort).2.1.currentRoomId =
      none := by
  have h := deleteUserChat_always_succeeds "u1" "r1" { currentRoomId := some "r1" } .timeoutAbort
  exact ⟨h.1, h.2.2.1 rfl⟩

/-- Outcome of the GET request and JSON parse in checkRoomExists. -/
inductive RoomCheckOutcome where
  | success (roomExists : Bool)
  | fetchFailure
  | parseFailure
deriving DecidableEq, Repr

/-- The try block of checkRoomExists (socket.ts lines 233-242): the
fetch may reject, response.json may reject, otherwise the exists field
of the payload is returned. -/
def checkRoomExistsTry : RoomCheckOutcome → Except Unit Bool
  | .success b => .ok b
  | .fetchFailure => .error ()
  | .parseFailure => .error ()

/-- checkRoomExists: the catch clause turns every thrown error into the
return value false, so the caller always receives a plain boolean. -/
def checkRoomExists (oc : RoomCheckOutcome) : Bool :=
  match checkRoomExistsTry oc with
  | .ok b => b
  | .error _ => false

/-- C10: checkRoomExists never propagates an error to its caller: a
fetch failure and a JSON parse failure both return false, the same
value returned for a room that does not exist, so the caller cannot
distinguish a nonexistent room from a network failure. -/
theorem checkRoomExists_error_to_false :
    checkRoomExists .fetchFailure = false ∧
    checkRoomExists .parseFailure = false ∧
    checkRoomExists (.success false) = false ∧
    checkRoomExists (.success true) = true ∧
    ∀ oc, checkRoomExistsTry oc = .error () → checkRoomExists oc = false := by
  refine ⟨rfl, rfl, rfl, rfl, ?_⟩
  intro oc h
  rw [checkRoomExists, h]

/-- C10 witness: the error case evaluated at the fetch-failure outcome. -/
theorem checkRoomExists_error_to_false_witness :
    checkRoomExists .fetchFailure = false :=
  checkRoomExists_error_to_false.2.2.2.2 .fetchFailure rfl

/-- User-interface events feeding the typing debouncer, each stamped
with its absolute time in milliseconds. -/
inductive DebEvent where
  | inputChange (value : String) (t : Nat)
  | blurEvent (t : Nat)
  | submitEvent (t : Nat)
deriving DecidableEq, Repr

/-- Time at which a debouncer event occurs. -/
def DebEvent.time : DebEvent → Nat
  | .inputChange _ t => t
  | .blurEvent t => t
  | .submitEvent t => t

/-- Typing signals sent to the server, stamped with emission time. -/
inductive TypEmit where
  | startTyping (t : Nat)
  | stopTyping (t : Nat)
deriving DecidableEq, Repr

/-- Debouncer state: the deadline of the pending 2 second idle timeout,
if one is armed (the typingTimeoutRef ref cell). -/
structure DebState where
  timer : Option Nat
deriving DecidableEq, Repr

/-- Bool test for a stop-typing emission. -/
def TypEmit.isStop : TypEmit → Bool
  | .stopTyping _ => true
  | .startTyping _ => false

/-- Fire the pending idle timeout if its deadline is not after the
current instant: the setTimeout callback sends stop-typing and nulls
the ref (ChatRoom.tsx lines 345-350). -/
def fireDue (t : Nat) (st : DebState) : List TypEmit × DebState :=
  match st.timer with
  | some d => if d ≤ t then ([.stopTyping d], { timer := none }) else ([], st)
  | none => ([], st)

/-- Model of the JavaScript emptiness test on value.trim(): true when
every character of the input is whitespace, in particular on the empty
string. -/
def trimEmpty (s : String) : Bool := s.data.all Char.isWhitespace

/-- One user-interface event, dispatched to its handler: a non-empty
input change sends start-typing and re-arms the idle timeout 2000 ms
ahead (handleInputChange, ChatRoom.tsx lines 330-359); an emptied input
and a submit clear the timeout and send stop-typing unconditionally
(same lines and handleSubmit lines 306-310); a blur sends stop-typing
only when a timeout is pending (onBlur, lines 710-717). -/
def handleDebEvent : DebEvent → DebState → List TypEmit × DebState
  | .inputChange v t, _ =>
    if trimEmpty v then ([.stopTyping t], { timer := none })
    else ([.startTyping t], { timer := some (t + 2000) })
  | .blurEvent t, st =>
    match st.timer with
    | some _ => ([.stopTyping t], { timer := none })
    | none => ([], st)
  | .submitEvent t, _ => ([.stopTyping t], { timer := none })

/-- Run the debouncer over a chronological event list: before each
event any due timeout fires, then the event handler runs. -/
def runDebAux : List DebEvent → DebState → List TypEmit × DebState
  | [], st => ([], st)
  | e :: rest, st =>
    let r1 := fireDue e.time st
    let r2 := handleDebEvent e r1.2
    let r3 := runDebAux rest r2.2
    (r1.1 ++ r2.1 ++ r3.1, r3.2)

/-- All emissions of a run, including the final pending timeout firing
after the last event. -/
def runDeb (evs : List DebEvent) : List TypEmit :=
  let r := runDebAux evs { timer := none }
  match r.2.timer with
  | some d => r.1 ++ [.stopTyping d]
  | none => r.1

/-- Bool test for a keystroke with non-empty trimmed content. -/
def isTypingKeystroke : DebEvent → Bool
  | .inputChange v _ => !trimEmpty v
  | _ => false

/-- Two consecutive events in chronological order separated by strictly
less than 2000 ms. -/
def gapLt (a b : DebEvent) : Prop :=
  a.time < b.time ∧ b.time < a.time + 2000

theorem filter_isStop_starts (l : List DebEvent) :
    (l.map (fun e => TypEmit.startTyping e.time)).filter TypEmit.isStop = [] := by
  induction l with
  | nil => rfl
  | cons e rest ih => simp [List.filter_cons, TypEmit.isStop, ih]

theorem runDebAux_burst (evs : List DebEvent) :
    ∀ st : DebState,
      (∀ e ∈ evs, isTypingKeystroke e = true) →
      evs.Chain' gapLt →
      (∀ d, st.timer = some d → ∀ e, evs.head? = some e → e.time < d) →
      (runDebAux evs st).1 = evs.map (fun e => .startTyping e.time) ∧
      (runDebAux evs st).2.timer =
        (match evs.getLast? with
         | some e => some (e.time + 2000)
         | none => st.timer) := by
  induction evs with
  | nil => intro st _ _ _; exact ⟨rfl, rfl⟩
  | cons e rest ih =>
    intro st hkeys hchain hguard
    obtain ⟨v, t, rfl⟩ : ∃ v t, e = DebEvent.inputChange v t := by
      cases e with
      | inputChange v t => exact ⟨v, t, rfl⟩
      | blurEvent t => simpa [isTypingKeystroke] using hkeys _ (List.mem_cons_self ..)
      | submitEvent t => simpa [isTypingKeystroke] using hkeys _ (List.mem_cons_self ..)
    have hv : trimEmpty v = false := by
      have hk := hkeys _ (List.mem_cons_self ..)
      simpa [isTypingKeystroke] using hk
    have hfire : fireDue (DebEvent.inputChange v t).time st = ([], st) := by
      cases hst : st.timer with
      | none => simp [fireDue, hst]
      | some d =>
        have hlt : (DebEvent.inputChange v t).time < d := hguard d hst _ rfl
        simp only [fireDue, hst]
        rw [if_neg (Nat.not_le.mpr hlt)]
    have hhand : handleDebEvent (DebEvent.inputChange v t) st =
        ([.startTyping t], { timer := some (t + 2000) }) := by
      simp [handleDebEvent, hv]
    obtain ⟨hout, htimer⟩ := ih { timer := some (t + 2000) }
      (fun x hx => hkeys x (List.mem_cons_of_mem _ hx))
      hchain.tail
      (by
        intro d hd f hf
        obtain rfl : t + 2000 = d := by simpa using hd
        have hrel := (List.chain'_cons'.mp hchain).1 f hf
        exact hrel.2)
    rw [runDebAux, hfire, hhand]
    refine ⟨by simp [DebEvent.time, hout], ?_⟩
    cases rest with
    | nil => simpa using htimer
    | cons f rest' =>
      rw [List.getLast?_cons_cons]
      simpa using htimer

/-- C5 counterexample: a keystroke at time 0 followed by a blur at time
3000, after the idle timeout already fired at 2000 and nulled the timer
ref, emits nothing at the blur: there is no stop-typing event at 3000,
while the claim requires an immediate stop on losing focus. -/
theorem blur_without_timer_counterexample :
    runDeb [.inputChange "a" 0, .blurEvent 3000] = [.startTyping 0, .stopTyping 2000] ∧
    TypEmit.stopTyping 3000 ∉ runDeb [.inputChange "a" 0, .blurEvent 3000] := by
  constructor <;> decide

/-- C5 amended: for a non-empty burst of keystrokes with non-empty
trimmed content and gaps strictly below 2000 ms, exactly one
stop-typing fires, 2000 ms after the last keystroke; an input change to
empty content and a submit emit stop-typing immediately whatever the
timer state; a blur emits stop-typing immediately when an idle timer is
pending, and otherwise emits nothing. -/
theorem typing_debounce_spec :
    (∀ evs : List DebEvent, evs ≠ [] →
      (∀ e ∈ evs, isTypingKeystroke e = true) →
      evs.Chain' gapLt →
      ∃ tl, (evs.getLast?).map DebEvent.time = some tl ∧
        (runDeb evs).filter TypEmit.isStop = [.stopTyping (tl + 2000)]) ∧
    (∀ (v : String) (t : Nat) (st : DebState), trimEmpty v = true →
      handleDebEvent (.inputChange v t) st = ([.stopTyping t], { timer := none })) ∧
    (∀ (t : Nat) (st : DebState),
      handleDebEvent (.submitEvent t) st = ([.stopTyping t], { timer := none })) ∧
    (∀ t d : Nat, handleDebEvent (.blurEvent t) { timer := some d } =
      ([.stopTyping t], { timer := none })) := by
  refine ⟨?_, ?_, ?_, ?_⟩
  · intro evs hne hkeys hchain
    obtain ⟨hout, htimer⟩ := runDebAux_burst evs { timer := none } hkeys hchain
      (by intro d hd; exact absurd hd (by simp))
    cases hlast : evs.getLast? with
    | none =>
      rw [List.getLast?_eq_none_iff] at hlast
      exact absurd hlast hne
    | some e =>
      refine ⟨e.time, by simp [hlast], ?_⟩
      rw [hlast] at htimer
      rw [runDeb]
      rw [htimer, hout]
      rw [List.filter_append, filter_isStop_starts]
      simp [TypEmit.isStop]
  · intro v t st hv
    simp [handleDebEvent, hv]
  · intro t st
    rfl
  · intro t d
    rfl

/-- C5 witness: the spec scenario with keystrokes at 0, 500, 1000 and
1500 ms produces exactly one stop-typing event, at 3500 ms. -/
theorem typing_debounce_spec_witness :
    (runDeb [.inputChange "a" 0, .inputChange "ab" 500, .inputChange "abc" 1000,
      .inputChange "abcd" 1500]).filter TypEmit.isStop = [.stopTyping 3500] := by
  obtain ⟨tl, htl, hstop⟩ := typing_debounce_spec.1
    [.inputChange "a" 0, .inputChange "ab" 500, .inputChange "abc" 1000,
      .inputChange "abcd" 1500]
    (by decide) (by decide)
    (by norm_num [List.chain'_cons, List.chain'_singleton, gapLt, DebEvent.time])
  have h15 : some (1500 : Nat) = some tl := by
    rw [← htl]
    decide
  obtain rfl : (1500 : Nat) = tl := (Option.some.injEq ..).mp h15
  exact hstop

end CollabGPT
